import Mathlib

/-!
Verification of the wordlebot guess-optimization engine (src/main.rs).

Words are fixed five-letter sequences, modelled as functions `Fin 5 → Char`.
The Rust `f64` scores compared through `ordered_float::OrderedFloat` are
modelled as rationals: every claim settled here concerns only the selection
logic (which element of a list attains the maximum key), never floating-point
rounding, so any linearly ordered field models the comparisons faithfully.
The Shannon-entropy computation itself is modelled over the reals.
-/

namespace WordleBot

/-- A five-letter word: position `i` holds the letter at index `i`. -/
abbrev Word := Fin 5 → Char

/-- Feedback tag for one letter position, mirroring `enum WordleAnswerColor`. -/
inductive WordleAnswerColor
  | Green
  | Yellow
  | Gray
deriving DecidableEq, Repr

open WordleAnswerColor

/-- Mirror of `struct Constraints`: per-position known (green) letter,
per-position present-but-misplaced (yellow) letters, and globally excluded
(gray) letters. -/
structure Constraints where
  known_letters : Fin 5 → Option Char
  included_letters : Fin 5 → List Char
  excluded_letters : List Char

/-- Mirror of `Constraints::new`. -/
def Constraints.new : Constraints :=
  { known_letters := fun _ => none
    included_letters := fun _ => []
    excluded_letters := [] }

/-- Mirror of Rust `str::contains(char)` on a five-letter word. -/
def wordContains (w : Word) (c : Char) : Bool :=
  (List.finRange 5).any fun j => w j == c

/-- Mirror of `Constraints::matches`: the three checks of the Rust function,
in order (each yellow set either empty or hit somewhere in the word; no
excluded letter anywhere in the word; each position agrees with the known
letter, or at least avoids that position's yellow set). -/
def Constraints.matches (s : Constraints) (w : Word) : Bool :=
  (((List.finRange 5).all fun i =>
      (s.included_letters i).isEmpty
        || (s.included_letters i).any fun c => wordContains w c)
    && !(s.excluded_letters.any fun c => wordContains w c))
    && ((List.finRange 5).all fun i =>
      match s.known_letters i with
      | some letter => w i == letter
      | none => !(decide (w i ∈ s.included_letters i)))

/-- One iteration of the `Constraints::update_from_guess` loop at position
`i`.  The pair carries the constraint state and the `seen` set (letters
already tagged green or yellow earlier in the same guess; the Rust `HashSet`
is modelled by a list with membership semantics). -/
def updStep (guess : Word) (output : Fin 5 → WordleAnswerColor)
    (p : Constraints × List Char) (i : Fin 5) : Constraints × List Char :=
  match output i with
  | Green =>
      ({ p.1 with known_letters := Function.update p.1.known_letters i (some (guess i)) },
        guess i :: p.2)
  | Yellow =>
      let incl :=
        if guess i ∈ p.1.included_letters i then p.1.included_letters i
        else p.1.included_letters i ++ [guess i]
      ({ p.1 with included_letters := Function.update p.1.included_letters i incl },
        guess i :: p.2)
  | Gray =>
      (if guess i ∈ p.1.excluded_letters ∨ guess i ∈ p.2 then p.1
       else { p.1 with excluded_letters := p.1.excluded_letters ++ [guess i] },
        p.2)

/-- Mirror of `Constraints::update_from_guess`: fold the per-position loop
body over positions 0..4 in order, starting from an empty `seen` set. -/
def Constraints.update_from_guess (s : Constraints) (guess : Word)
    (output : Fin 5 → WordleAnswerColor) : Constraints :=
  ((List.finRange 5).foldl (updStep guess output) (s, [])).1

/-- Loop body of `simulate_guess` at position `i`: overwrite the initial
gray tag with green on an exact match, else yellow when the letter occurs
anywhere in the answer. -/
def simStep (correct guess : Word) (output : Fin 5 → WordleAnswerColor)
    (i : Fin 5) : Fin 5 → WordleAnswerColor :=
  if correct i = guess i then Function.update output i Green
  else if wordContains correct (guess i) then Function.update output i Yellow
  else output

/-- Mirror of `simulate_guess`: start from all-gray output and run the loop
over positions 0..4. -/
def simulate_guess (correct guess : Word) : Fin 5 → WordleAnswerColor :=
  (List.finRange 5).foldl (simStep correct guess) (fun _ => Gray)

/-- One step of `Iterator::max_by_key`: keep the running maximum, replacing
it when the new element's key is at least as large (so ties go to the later
element, as both std and rayon document). -/
def maxStep {α : Type} (key : α → ℚ) (acc : Option α) (x : α) : Option α :=
  match acc with
  | none => some x
  | some m => if key m ≤ key x then some x else some m

/-- Mirror of `Iterator::max_by_key` (and of rayon's parallel version, which
documents the same contract): fold left, and on a tie of keys keep the
*later* element.  Returns `none` exactly on the empty list, modelling the
`Option` that Rust `unwrap`s. -/
def maxByKeyLast {α : Type} (key : α → ℚ) (l : List α) : Option α :=
  l.foldl (maxStep key) none

/-- Rayon's binary reduction step for a maximum: between the result of an
earlier chunk and the result of a later chunk, ties go to the later one. -/
def combineMax {α : Type} (key : α → ℚ) : Option α → Option α → Option α
  | none, b => b
  | some a, none => some a
  | some a, some b => if key a ≤ key b then some b else some a

/-- Mirror of `find_best_guess`: score every vocabulary word against the
remaining pool, pair it with its fitness, take the maximum by the score
component, and project the word back out.  The `f64` fitness returned by
`find_guess_fitness` is abstracted as a pure score function into `ℚ`
(the claims settled over this definition concern only the order structure of
the reduction). -/
def find_best_guess (all_words remaining_words : List Word)
    (fitness : Word → List Word → ℚ) : Option Word :=
  (maxByKeyLast (fun p => p.2)
    (all_words.map fun word => (word, fitness word remaining_words))).map Prod.fst

/-- Chunked evaluation of `find_best_guess`, mirroring how rayon partitions
`all_words.par_iter()` into chunks, reduces each chunk locally, and combines
the per-chunk maxima in chunk order. -/
def parallel_best_guess (chunks : List (List Word)) (remaining_words : List Word)
    (fitness : Word → List Word → ℚ) : Option Word :=
  ((chunks.map fun ch =>
      maxByKeyLast (fun p : Word × ℚ => p.2)
        (ch.map fun word => (word, fitness word remaining_words))).foldl
    (combineMax fun p => p.2) none).map Prod.fst

/-- The hard-coded first guess of the solver loop. -/
def salet : Word := !['s', 'a', 'l', 'e', 't']

/-- The guess budget (`max_iterations` in the source). -/
def max_iterations : Nat := 6

/-- The guess selection of the solver loop (benchmark and assister), round
`i` counted from 1: the first round plays the hard-coded `salet`; when at
most two candidates remain or the budget is reached the pool word of maximal
Bayesian probability is taken (ties to the last, per `max_by_key`); otherwise
the full search runs over the vocabulary (pool only, in hard mode).
`probabilities` models `probabilities.get(word).unwrap_or(&0.0)` as a total
map. -/
def chooseGuess (hard_mode : Bool) (i : Nat) (all_words words : List Word)
    (probabilities : Word → ℚ) (fitness : Word → List Word → ℚ) : Option Word :=
  if i = 1 then some salet
  else if words.length ≤ 2 ∨ max_iterations ≤ i then maxByKeyLast probabilities words
  else if hard_mode then find_best_guess words words fitness
  else find_best_guess all_words words fitness

/-- Increment the bucket of pattern `pat`, mirroring
`*distribution.entry(pattern).or_insert(0) += 1` on the `HashMap`. -/
def bumpEntry : List ((Fin 5 → WordleAnswerColor) × Nat) →
    (Fin 5 → WordleAnswerColor) → List ((Fin 5 → WordleAnswerColor) × Nat)
  | [], pat => [(pat, 1)]
  | (q, n) :: rest, pat =>
      if q = pat then (q, n + 1) :: rest else (q, n) :: bumpEntry rest pat

/-- The feedback-pattern distribution a guess induces on the pool, as built
by the loop at the start of `find_guess_fitness`. -/
def buildDistribution (words : List Word) (guess : Word) :
    List ((Fin 5 → WordleAnswerColor) × Nat) :=
  words.foldl (fun d word => bumpEntry d (simulate_guess word guess)) []

/-- Mirror of `shannon_entropy`: `Σ -p log2 p` over the bucket counts, with
`p = count / total`; the `f64` arithmetic is modelled over `ℝ`. -/
noncomputable def shannon_entropy (distribution : List ((Fin 5 → WordleAnswerColor) × Nat))
    (total : Nat) : ℝ :=
  (distribution.map fun e =>
    -(((e.2 : ℝ) / (total : ℝ)) * Real.logb 2 ((e.2 : ℝ) / (total : ℝ)))).sum

/-- Mirror of Rust `str::trim` on a line of input characters. -/
def trimWs (l : List Char) : List Char :=
  ((l.dropWhile Char.isWhitespace).reverse.dropWhile Char.isWhitespace).reverse

/-- Accumulator-based splitter mirroring `str::split_whitespace`: maximal
runs of non-whitespace characters, empty tokens dropped. -/
def splitWsAux : List Char → List Char → List (List Char)
  | [], acc => if acc = [] then [] else [acc.reverse]
  | c :: rest, acc =>
      if c.isWhitespace then
        if acc = [] then splitWsAux rest [] else acc.reverse :: splitWsAux rest []
      else splitWsAux rest (c :: acc)

/-- Mirror of `str::split_whitespace().collect()`. -/
def splitWs (l : List Char) : List (List Char) :=
  splitWsAux l []

/-- Mirror of `input.eq_ignore_ascii_case("exit")`. -/
def isExitLine (l : List Char) : Bool :=
  l.map Char.toLower == ['e', 'x', 'i', 't']

/-- Mirror of the `match` arm converting one result character; the wildcard
panic arm is modelled by `none`. -/
def charToColor : Char → Option WordleAnswerColor
  | 'g' => some Green
  | 'y' => some Yellow
  | 'x' => some Gray
  | _ => none

/-- Mirror of `result.chars().map(...).collect()`: the whole conversion
fails (Rust panics) when any character fails. -/
def colorsOf : List Char → Option (List WordleAnswerColor)
  | [] => some []
  | c :: rest =>
      match charToColor c, colorsOf rest with
      | some col, some cols => some (col :: cols)
      | _, _ => none

/-- Outcome of reading one interactive input line. -/
inductive LineResult
  | exitSession
  | invalid
  | won (guess : Word)
  | feedback (guess : Word) (colors : Fin 5 → WordleAnswerColor)
  | crash

/-- Mirror of the input-validation block of `run_assister`'s inner loop:
trim, check for `exit`, split into tokens, validate token count, lengths,
result alphabet and vocabulary membership, then recognise `ggggg` or convert
the feedback.  `crash` marks the panic/unwrap paths. -/
def processLine (all_words : List (List Char)) (input : List Char) : LineResult :=
  let t := trimWs input
  if isExitLine t then .exitSession
  else
    match splitWs t with
    | [guess, result] =>
        if guess.length ≠ 5 ∨ result.length ≠ 5 then .invalid
        else if result.any (fun c => !(c == 'g' || c == 'y' || c == 'x')) then .invalid
        else if ¬ (guess ∈ all_words) then .invalid
        else if result = ['g', 'g', 'g', 'g', 'g'] then
          if hg : guess.length = 5 then .won (fun i => guess.get (Fin.cast hg.symm i))
          else .crash
        else
          match colorsOf result with
          | some cs =>
              if hc : cs.length = 5 then
                if hg : guess.length = 5 then
                  .feedback (fun i => guess.get (Fin.cast hg.symm i))
                    (fun i => cs.get (Fin.cast hc.symm i))
                else .crash
              else .crash
          | none => .crash
    | _ => .invalid

/-- The claim's notion of a malformed interactive line, written from the
spec's words: not the exit command, and wrong token count, or a token of the
wrong length, or a result character outside g/y/x, or an unknown guess
word. -/
def Malformed (all_words : List (List Char)) (input : List Char) : Bool :=
  let t := trimWs input
  !(isExitLine t)
    && (match splitWs t with
        | [guess, result] =>
            decide (guess.length ≠ 5) || decide (result.length ≠ 5)
              || result.any (fun c => !(c == 'g' || c == 'y' || c == 'x'))
              || !(decide (guess ∈ all_words))
        | _ => true)

/-- Effect of one input line on the interactive session: the resulting
constraint state, candidate pool, whether the line is re-prompted, and
whether the session ends.  A valid feedback line folds the feedback into the
constraints and filters the pool (`words.retain`), everything else leaves
both untouched. -/
def applyLine (all_words : List (List Char)) (c : Constraints) (words : List Word)
    (input : List Char) : Constraints × List Word × Bool × Bool :=
  match processLine all_words input with
  | .invalid => (c, words, true, false)
  | .exitSession => (c, words, false, true)
  | .won _ => (c, words, false, true)
  | .crash => (c, words, false, true)
  | .feedback guess out =>
      let c' := c.update_from_guess guess out
      (c', words.filter (fun w => c'.matches w), false, false)

/-- The letters of a word, for the `seen.set_word` bit-flag updates. -/
def wordChars (w : Word) : List Char :=
  (List.finRange 5).map w

/-- Per-episode mutable state of the benchmark loop: remaining candidate
pool, accumulated constraints, and the set of letters already played
(`SeenLetterBitFlags`, modelled by a list with membership semantics).  The
derived probability and frequency tables are functions of this state and are
absorbed into the abstract guess chooser. -/
structure EpState where
  words : List Word
  constraints : Constraints
  seen : List Char

/-- Mirror of the benchmark episode loop: round counter `i` (incremented at
the top of each pass), guess selection abstracted as `chooser`, win test,
state update (`seen.set_word`, `update_from_guess`, `words.retain`), and the
budget check `i >= max_iterations`.  `fuel` bounds the recursion; `none`
models a loop that would run beyond its fuel.  Returns (won?, rounds). -/
def episodeLoop (chooser : Nat → EpState → Word) (correct : Word) :
    Nat → Nat → EpState → Option (Bool × Nat)
  | 0, _, _ => none
  | fuel + 1, i, st =>
      let i' := i + 1
      let guess := chooser i' st
      if guess = correct then some (true, i')
      else
        let c' := st.constraints.update_from_guess guess (simulate_guess correct guess)
        let st' : EpState :=
          { words := st.words.filter (fun w => c'.matches w)
            constraints := c'
            seen := wordChars guess ++ st.seen }
        if max_iterations ≤ i' then some (false, i')
        else episodeLoop chooser correct fuel i' st'

section MaxSelection

variable {α : Type} (key : α → ℚ)

lemma combineMax_none_right (a : Option α) : combineMax key a none = a := by
  cases a <;> rfl

lemma combineMax_assoc (a b c : Option α) :
    combineMax key (combineMax key a b) c = combineMax key a (combineMax key b c) := by
  rcases a with _ | a
  · rfl
  rcases b with _ | b
  · rfl
  rcases c with _ | c
  · simp [combineMax_none_right]
  by_cases hab : key a ≤ key b <;> by_cases hbc : key b ≤ key c
  · simp [combineMax, hab, hbc, hab.trans hbc]
  · simp [combineMax, hab, hbc]
  · simp [combineMax, hab, hbc]
  · have hac : ¬ key a ≤ key c := by
      push_neg at hab hbc ⊢
      exact hbc.trans hab
    simp [combineMax, hab, hbc, hac]

lemma maxStep_eq_combine (acc : Option α) (x : α) :
    maxStep key acc x = combineMax key acc (some x) := by
  cases acc <;> rfl

lemma foldl_maxStep_eq (l : List α) :
    ∀ acc : Option α, l.foldl (maxStep key) acc = combineMax key acc (maxByKeyLast key l) := by
  induction l with
  | nil => intro acc; simp [maxByKeyLast, combineMax_none_right]
  | cons x t ih =>
      intro acc
      have hcons : maxByKeyLast key (x :: t) = combineMax key (some x) (maxByKeyLast key t) := by
        simp only [maxByKeyLast, List.foldl_cons]
        have : maxStep key none x = some x := rfl
        rw [this, ih (some x)]
        rfl
      simp only [List.foldl_cons]
      rw [ih (maxStep key acc x), maxStep_eq_combine, hcons, combineMax_assoc]

lemma maxByKeyLast_cons (x : α) (t : List α) :
    maxByKeyLast key (x :: t) = combineMax key (some x) (maxByKeyLast key t) := by
  simp only [maxByKeyLast, List.foldl_cons]
  have : maxStep key none x = some x := rfl
  rw [this]
  exact foldl_maxStep_eq key t (some x)

lemma maxByKeyLast_append (l₁ l₂ : List α) :
    maxByKeyLast key (l₁ ++ l₂)
      = combineMax key (maxByKeyLast key l₁) (maxByKeyLast key l₂) := by
  simp only [maxByKeyLast, List.foldl_append]
  exact foldl_maxStep_eq key l₂ (maxByKeyLast key l₁)

/-- Full characterisation of `max_by_key`: on a non-empty list it returns an
element attaining the maximum key, and every element strictly after the
returned one has a strictly smaller key (the returned element is the *last*
maximum). -/
lemma maxByKeyLast_spec (l : List α) (hl : l ≠ []) :
    ∃ l₁ w l₂, l = l₁ ++ w :: l₂ ∧ maxByKeyLast key l = some w ∧
      (∀ v ∈ l, key v ≤ key w) ∧ (∀ v ∈ l₂, key v < key w) := by
  induction l with
  | nil => exact absurd rfl hl
  | cons x t ih =>
      by_cases ht : t = []
      · subst ht
        exact ⟨[], x, [], rfl, rfl, by simp, by simp⟩
      · obtain ⟨l₁, w, l₂, hdec, hmax, hall, hlast⟩ := ih ht
        by_cases hxw : key x ≤ key w
        · refine ⟨x :: l₁, w, l₂, by rw [hdec]; rfl, ?_, ?_, hlast⟩
          · rw [maxByKeyLast_cons, hmax]
            simp [combineMax, hxw]
          · intro v hv
            rcases List.mem_cons.mp hv with h | h
            · exact h ▸ hxw
            · exact hall v h
        · push_neg at hxw
          refine ⟨[], x, t, rfl, ?_, ?_, ?_⟩
          · rw [maxByKeyLast_cons, hmax]
            simp [combineMax, not_le.mpr hxw]
          · intro v hv
            rcases List.mem_cons.mp hv with h | h
            · exact h ▸ le_refl _
            · exact le_of_lt (lt_of_le_of_lt (hall v h) hxw)
          · intro v hv
            exact lt_of_le_of_lt (hall v hv) hxw

lemma maxByKeyLast_map {β : Type} (f : β → α) (l : List β) :
    maxByKeyLast key (l.map f) = Option.map f (maxByKeyLast (fun b => key (f b)) l) := by
  suffices h : ∀ acc : Option β,
      (l.map f).foldl (maxStep key) (Option.map f acc)
        = Option.map f (l.foldl (maxStep fun b => key (f b)) acc) by
    have := h none
    simpa [maxByKeyLast] using this
  induction l with
  | nil => intro acc; simp
  | cons x t ih =>
      intro acc
      simp only [List.map_cons, List.foldl_cons]
      have hstep : maxStep key (Option.map f acc) (f x)
          = Option.map f (maxStep (fun b => key (f b)) acc x) := by
        rcases acc with _ | m
        · rfl
        · simp only [maxStep, Option.map_some']
          split_ifs <;> rfl
      rw [hstep, ih]

lemma foldl_combineMax_eq (L : List (Option α)) :
    ∀ acc : Option α,
      L.foldl (combineMax key) acc = combineMax key acc (L.foldl (combineMax key) none) := by
  induction L with
  | nil => intro acc; simp [combineMax_none_right]
  | cons b R ih =>
      intro acc
      simp only [List.foldl_cons]
      have hb : combineMax key none b = b := rfl
      rw [hb, ih (combineMax key acc b), ih b, combineMax_assoc]

lemma maxByKeyLast_flatten (L : List (List α)) :
    maxByKeyLast key L.flatten = (L.map (maxByKeyLast key)).foldl (combineMax key) none := by
  induction L with
  | nil => rfl
  | cons c R ih =>
      simp only [List.flatten_cons, List.map_cons, List.foldl_cons]
      rw [maxByKeyLast_append, ih,
        foldl_combineMax_eq key (R.map (maxByKeyLast key))
          (combineMax key none (maxByKeyLast key c))]
      rfl

end MaxSelection

lemma find_best_guess_eq (all_words remaining : List Word)
    (fitness : Word → List Word → ℚ) :
    find_best_guess all_words remaining fitness
      = maxByKeyLast (fun w => fitness w remaining) all_words := by
  simp only [find_best_guess, maxByKeyLast_map, Option.map_map]
  rcases maxByKeyLast (fun w => fitness w remaining) all_words with _ | w <;> rfl

lemma parallel_best_guess_eq (chunks : List (List Word)) (remaining : List Word)
    (fitness : Word → List Word → ℚ) :
    parallel_best_guess chunks remaining fitness
      = find_best_guess chunks.flatten remaining fitness := by
  unfold parallel_best_guess find_best_guess
  congr 1
  rw [List.map_flatten, maxByKeyLast_flatten, List.map_map]
  rfl

/-- A second concrete word used by the counterexamples. -/
def crane : Word := !['c', 'r', 'a', 'n', 'e']

/-- Claim C3 is false as stated: with two candidates left on the final round
and all probabilities equal (the fresh-episode state where `probabilities`
is the empty map, so every lookup defaults to 0), the endgame branch picks
the *last* pool word, not the first. -/
theorem C3_counterexample :
    chooseGuess false 6 [salet, crane] [salet, crane] (fun _ => 0) (fun _ _ => 0)
        = some crane ∧
      ([salet, crane] : List Word).head? = some salet ∧ crane ≠ salet := by
  refine ⟨by decide, rfl, by decide⟩

/-- Claim C3 (amended): in the solver loop, on every round other than the
first, whenever the remaining pool has size at most 2 or the budget bound is
reached, the next guess is the pool word of maximal probability score, ties
broken toward the *last* such word in pool order. -/
theorem C3_endgame_is_last_argmax (hard_mode : Bool) (i : Nat)
    (all_words words : List Word) (prob : Word → ℚ)
    (fitness : Word → List Word → ℚ) (h1 : i ≠ 1)
    (hcond : words.length ≤ 2 ∨ max_iterations ≤ i) (hne : words ≠ []) :
    ∃ l₁ w l₂, words = l₁ ++ w :: l₂ ∧
      chooseGuess hard_mode i all_words words prob fitness = some w ∧
      (∀ v ∈ words, prob v ≤ prob w) ∧ (∀ v ∈ l₂, prob v < prob w) := by
  obtain ⟨l₁, w, l₂, hdec, hmax, hall, hlast⟩ := maxByKeyLast_spec prob words hne
  refine ⟨l₁, w, l₂, hdec, ?_, hall, hlast⟩
  unfold chooseGuess
  rw [if_neg h1, if_pos hcond]
  exact hmax

/-- Witness for the amended claim C3 at a concrete endgame state. -/
theorem C3_witness :
    ([salet, crane] : List Word) ≠ [] ∧
      ∃ l₁ w l₂, ([salet, crane] : List Word) = l₁ ++ w :: l₂ ∧
        chooseGuess false 6 [salet] [salet, crane] (fun _ => 0) (fun _ _ => 0) = some w ∧
        (∀ v ∈ ([salet, crane] : List Word), (0 : ℚ) ≤ 0) ∧
        (∀ v ∈ l₂, (0 : ℚ) < 0) :=
  ⟨List.cons_ne_nil _ _,
    C3_endgame_is_last_argmax false 6 [salet] [salet, crane] (fun _ => 0) (fun _ _ => 0)
      (by decide) (Or.inl (by decide)) (List.cons_ne_nil _ _)⟩

/-- Claim C4 is false as stated: with two vocabulary words of equal fitness,
`find_best_guess` returns the *last* maximal word, not the first. -/
theorem C4_counterexample :
    find_best_guess [salet, crane] [salet] (fun _ _ => 0) = some crane ∧ crane ≠ salet := by
  refine ⟨by decide, by decide⟩

/-- Claim C4 (amended): for a non-empty vocabulary, `find_best_guess`
returns the vocabulary word whose fitness score is the global maximum, with
ties broken toward the *last* such word in vocabulary order, and the result
is independent of how the vocabulary is partitioned into chunks (rayon's
reduction combines chunk maxima in order with the same tie-break). -/
theorem C4_best_guess_global_max (chunks : List (List Word))
    (all_words remaining : List Word) (fitness : Word → List Word → ℚ)
    (hflat : chunks.flatten = all_words) (hne : all_words ≠ []) :
    parallel_best_guess chunks remaining fitness
        = find_best_guess all_words remaining fitness ∧
      ∃ l₁ w l₂, all_words = l₁ ++ w :: l₂ ∧
        find_best_guess all_words remaining fitness = some w ∧
        (∀ v ∈ all_words, fitness v remaining ≤ fitness w remaining) ∧
        (∀ v ∈ l₂, fitness v remaining < fitness w remaining) := by
  constructor
  · rw [← hflat, parallel_best_guess_eq]
  · obtain ⟨l₁, w, l₂, hdec, hmax, hall, hlast⟩ :=
      maxByKeyLast_spec (fun w => fitness w remaining) all_words hne
    refine ⟨l₁, w, l₂, hdec, ?_, hall, hlast⟩
    rw [find_best_guess_eq]
    exact hmax

/-- Witness for the amended claim C4 at a concrete chunking. -/
theorem C4_witness :
    ([[salet], [crane]] : List (List Word)).flatten = [salet, crane] ∧
      (parallel_best_guess [[salet], [crane]] [salet] (fun _ _ => 0)
          = find_best_guess [salet, crane] [salet] (fun _ _ => 0) ∧
        ∃ l₁ w l₂, ([salet, crane] : List Word) = l₁ ++ w :: l₂ ∧
          find_best_guess [salet, crane] [salet] (fun _ _ => 0) = some w ∧
          (∀ v ∈ ([salet, crane] : List Word), (0 : ℚ) ≤ 0) ∧
          (∀ v ∈ l₂, (0 : ℚ) < 0)) :=
  ⟨rfl, C4_best_guess_global_max [[salet], [crane]] [salet, crane] [salet]
    (fun _ _ => 0) rfl (List.cons_ne_nil _ _)⟩

/-- Claim C8: with a non-empty vocabulary (and pool), the reduction inside
`find_best_guess` is over a non-empty scored sequence, so the `unwrap` is
unreachable and a vocabulary word is always returned. -/
theorem C8_best_guess_total (all_words remaining : List Word)
    (fitness : Word → List Word → ℚ) (hv : all_words ≠ []) (hp : remaining ≠ []) :
    ∃ w, find_best_guess all_words remaining fitness = some w ∧ w ∈ all_words := by
  obtain ⟨l₁, w, l₂, hdec, hmax, -, -⟩ :=
    maxByKeyLast_spec (fun w => fitness w remaining) all_words hv
  refine ⟨w, ?_, ?_⟩
  · rw [find_best_guess_eq]
    exact hmax
  · rw [hdec]
    exact List.mem_append_right l₁ (List.mem_cons_self w l₂)

/-- Witness for claim C8 at a concrete singleton vocabulary and pool. -/
theorem C8_witness :
    ∃ w, find_best_guess [salet] [salet] (fun _ _ => 0) = some w ∧ w ∈ ([salet] : List Word) :=
  C8_best_guess_total [salet] [salet] (fun _ _ => 0)
    (List.cons_ne_nil _ _) (List.cons_ne_nil _ _)

lemma wordContains_iff (w : Word) (c : Char) :
    wordContains w c = true ↔ ∃ j, w j = c := by
  simp [wordContains, List.any_eq_true, List.mem_finRange, beq_iff_eq]

/-- Propositional reading of the three checks of `Constraints::matches`. -/
lemma matches_iff (s : Constraints) (w : Word) :
    s.matches w = true ↔
      ((∀ i, s.included_letters i = [] ∨ ∃ c ∈ s.included_letters i, ∃ j, w j = c) ∧
        (∀ c ∈ s.excluded_letters, ∀ j, w j ≠ c) ∧
        (∀ i l, s.known_letters i = some l → w i = l) ∧
        (∀ i, s.known_letters i = none → w i ∉ s.included_letters i)) := by
  unfold Constraints.matches
  constructor
  · intro h
    rw [Bool.and_eq_true, Bool.and_eq_true] at h
    obtain ⟨⟨h1, h2⟩, h3⟩ := h
    refine ⟨?_, ?_, ?_, ?_⟩
    · intro i
      have hi := List.all_eq_true.mp h1 i (List.mem_finRange i)
      rw [Bool.or_eq_true] at hi
      rcases hi with he | ha
      · exact Or.inl (List.isEmpty_iff.mp he)
      · obtain ⟨c, hc, hwc⟩ := List.any_eq_true.mp ha
        exact Or.inr ⟨c, hc, (wordContains_iff w c).mp hwc⟩
    · intro c hc j hj
      have hany : s.excluded_letters.any (fun c => wordContains w c) = true :=
        List.any_eq_true.mpr ⟨c, hc, (wordContains_iff w c).mpr ⟨j, hj⟩⟩
      rw [hany] at h2
      exact absurd h2 (by decide)
    · intro i lv hl
      have hi := List.all_eq_true.mp h3 i (List.mem_finRange i)
      simp only [hl] at hi
      exact beq_iff_eq.mp hi
    · intro i hnone hmem
      have hi := List.all_eq_true.mp h3 i (List.mem_finRange i)
      simp only [hnone] at hi
      rw [Bool.not_eq_true', decide_eq_false_iff_not] at hi
      exact hi hmem
  · rintro ⟨h1, h2, h3, h4⟩
    rw [Bool.and_eq_true, Bool.and_eq_true]
    refine ⟨⟨?_, ?_⟩, ?_⟩
    · apply List.all_eq_true.mpr
      intro i _
      rcases h1 i with he | ⟨c, hc, j, hj⟩
      · rw [Bool.or_eq_true]
        exact Or.inl (List.isEmpty_iff.mpr he)
      · rw [Bool.or_eq_true]
        exact Or.inr (List.any_eq_true.mpr ⟨c, hc, (wordContains_iff w c).mpr ⟨j, hj⟩⟩)
    · rw [Bool.not_eq_true']
      cases hb : s.excluded_letters.any (fun c => wordContains w c)
      · rfl
      · obtain ⟨c, hc, hwc⟩ := List.any_eq_true.mp hb
        obtain ⟨j, hj⟩ := (wordContains_iff w c).mp hwc
        exact absurd hj (h2 c hc j)
    · apply List.all_eq_true.mpr
      intro i _
      cases hk : s.known_letters i with
      | some lv =>
          simp only [hk]
          exact beq_iff_eq.mpr (h3 i lv hk)
      | none =>
          simp only [hk]
          rw [Bool.not_eq_true', decide_eq_false_iff_not]
          exact h4 i hk

/-- Along the `update_from_guess` fold, the known letter at a position is
either untouched or set to the guess letter of a green position. -/
lemma updFold_known (g : Word) (f : Fin 5 → WordleAnswerColor) (l : List (Fin 5)) :
    ∀ (p : Constraints × List Char) (i : Fin 5),
      (l.foldl (updStep g f) p).1.known_letters i = p.1.known_letters i ∨
        (f i = Green ∧ (l.foldl (updStep g f) p).1.known_letters i = some (g i)) := by
  induction l with
  | nil => intro p i; exact Or.inl rfl
  | cons k t ih =>
      intro p i
      simp only [List.foldl_cons]
      rcases ih (updStep g f p k) i with h | h
      · rw [h]
        cases hk : f k
        · by_cases hik : i = k
          · subst hik
            exact Or.inr ⟨hk, by simp [updStep, hk, Function.update_same]⟩
          · exact Or.inl (by simp [updStep, hk, Function.update_noteq hik])
        · exact Or.inl (by simp [updStep, hk])
        · refine Or.inl ?_
          simp only [updStep, hk]
          split <;> rfl
      · exact Or.inr h

/-- Stability: once the known letter at `i` is the guess letter, the rest of
the fold keeps it (any later green write at `i` writes the same value). -/
lemma updFold_known_stable (g : Word) (f : Fin 5 → WordleAnswerColor) (l : List (Fin 5))
    (p : Constraints × List Char) (i : Fin 5) (hp : p.1.known_letters i = some (g i)) :
    (l.foldl (updStep g f) p).1.known_letters i = some (g i) := by
  rcases updFold_known g f l p i with h | h
  · rw [h, hp]
  · exact h.2

/-- Membership in a per-position yellow set after the fold: either it was
already there, or it is the guess letter of a yellow position `i ∈ l`. -/
lemma updFold_incl (g : Word) (f : Fin 5 → WordleAnswerColor) (l : List (Fin 5)) :
    ∀ (p : Constraints × List Char) (i : Fin 5) (c : Char),
      c ∈ (l.foldl (updStep g f) p).1.included_letters i ↔
        c ∈ p.1.included_letters i ∨ (i ∈ l ∧ f i = Yellow ∧ c = g i) := by
  induction l with
  | nil => intro p i c; simp
  | cons k t ih =>
      intro p i c
      simp only [List.foldl_cons]
      rw [ih]
      have hstep : c ∈ (updStep g f p k).1.included_letters i ↔
          c ∈ p.1.included_letters i ∨ (i = k ∧ f i = Yellow ∧ c = g i) := by
        cases hk : f k
        · simp only [updStep, hk]
          constructor
          · exact fun h => Or.inl h
          · rintro (h | ⟨rfl, hy, -⟩)
            · exact h
            · rw [hk] at hy
              exact absurd hy (by decide)
        · simp only [updStep, hk]
          by_cases hik : i = k
          · subst hik
            rw [Function.update_same]
            by_cases hmem : g i ∈ p.1.included_letters i
            · rw [if_pos hmem]
              constructor
              · exact fun h => Or.inl h
              · rintro (h | ⟨-, -, rfl⟩)
                · exact h
                · exact hmem
            · rw [if_neg hmem]
              rw [List.mem_append, List.mem_singleton]
              constructor
              · rintro (h | rfl)
                · exact Or.inl h
                · exact Or.inr ⟨rfl, hk, rfl⟩
              · rintro (h | ⟨-, -, rfl⟩)
                · exact Or.inl h
                · exact Or.inr rfl
          · rw [Function.update_noteq hik]
            constructor
            · exact fun h => Or.inl h
            · rintro (h | ⟨hik2, -, -⟩)
              · exact h
              · exact absurd hik2 hik
        · simp only [updStep, hk]
          split
          all_goals constructor
          · exact fun h => Or.inl h
          · rintro (h | ⟨rfl, hy, -⟩)
            · exact h
            · rw [hk] at hy
              exact absurd hy (by decide)
          · exact fun h => Or.inl h
          · rintro (h | ⟨rfl, hy, -⟩)
            · exact h
            · rw [hk] at hy
              exact absurd hy (by decide)
      rw [hstep, List.mem_cons]
      tauto

/-- Letters in the global-excluded list after the fold: either previously
excluded, or the guess letter of some gray position of `l`. -/
lemma updFold_excl_sub (g : Word) (f : Fin 5 → WordleAnswerColor) (l : List (Fin 5)) :
    ∀ (p : Constraints × List Char) (c : Char),
      c ∈ (l.foldl (updStep g f) p).1.excluded_letters →
        c ∈ p.1.excluded_letters ∨ ∃ i, i ∈ l ∧ f i = Gray ∧ c = g i := by
  induction l with
  | nil => intro p c h; exact Or.inl h
  | cons k t ih =>
      intro p c h
      simp only [List.foldl_cons] at h
      rcases ih _ c h with h' | ⟨i, hi, hGray, rfl⟩
      · cases hk : f k
        · rw [show (updStep g f p k).1.excluded_letters = p.1.excluded_letters by
            simp [updStep, hk]] at h'
          exact Or.inl h'
        · rw [show (updStep g f p k).1.excluded_letters = p.1.excluded_letters by
            simp [updStep, hk]] at h'
          exact Or.inl h'
        · simp only [updStep, hk] at h'
          split at h'
          · exact Or.inl h'
          · rcases List.mem_append.mp h' with h'' | h''
            · exact Or.inl h''
            · exact Or.inr ⟨k, List.mem_cons_self k t, hk, List.mem_singleton.mp h''⟩
      · exact Or.inr ⟨i, List.mem_cons_of_mem k hi, hGray, rfl⟩

/-- The global-excluded list only grows along the fold. -/
lemma updFold_excl_mono (g : Word) (f : Fin 5 → WordleAnswerColor) (l : List (Fin 5)) :
    ∀ (p : Constraints × List Char) (c : Char),
      c ∈ p.1.excluded_letters → c ∈ (l.foldl (updStep g f) p).1.excluded_letters := by
  induction l with
  | nil => exact fun p c h => h
  | cons k t ih =>
      intro p c h
      simp only [List.foldl_cons]
      apply ih
      cases hk : f k
      · simpa [updStep, hk] using h
      · simpa [updStep, hk] using h
      · simp only [updStep, hk]
        split
        · exact h
        · exact List.mem_append_left _ h

/-- Pointwise value of the naive classifier at one position. -/
def pointClass (correct guess : Word) (j : Fin 5) : WordleAnswerColor :=
  if correct j = guess j then Green
  else if wordContains correct (guess j) then Yellow
  else Gray

lemma simStep_apply (correct guess : Word) (k j : Fin 5)
    (init : Fin 5 → WordleAnswerColor) :
    simStep correct guess init k j =
      if j = k ∧ pointClass correct guess k ≠ Gray then pointClass correct guess k
      else init j := by
  by_cases h1 : correct k = guess k
  · have hpc : pointClass correct guess k = Green := by simp [pointClass, h1]
    rw [hpc]
    simp only [simStep, if_pos h1]
    by_cases hjk : j = k
    · subst hjk
      rw [Function.update_same, if_pos ⟨rfl, by decide⟩]
    · rw [Function.update_noteq hjk, if_neg (fun h => hjk h.1)]
  · by_cases h2 : wordContains correct (guess k) = true
    · have hpc : pointClass correct guess k = Yellow := by simp [pointClass, h1, h2]
      rw [hpc]
      simp only [simStep, if_neg h1, if_pos h2]
      by_cases hjk : j = k
      · subst hjk
        rw [Function.update_same, if_pos ⟨rfl, by decide⟩]
      · rw [Function.update_noteq hjk, if_neg (fun h => hjk h.1)]
    · have hpc : pointClass correct guess k = Gray := by simp [pointClass, h1, h2]
      rw [hpc]
      simp only [simStep, if_neg h1, if_neg h2]
      rw [if_neg (fun h => h.2 rfl)]

lemma simFold_apply (correct guess : Word) (l : List (Fin 5)) :
    ∀ (init : Fin 5 → WordleAnswerColor) (j : Fin 5),
      (l.foldl (simStep correct guess) init) j =
        if j ∈ l ∧ pointClass correct guess j ≠ Gray then pointClass correct guess j
        else init j := by
  induction l with
  | nil => intro init j; simp
  | cons k t ih =>
      intro init j
      simp only [List.foldl_cons]
      rw [ih, simStep_apply]
      by_cases hA : j ∈ t ∧ pointClass correct guess j ≠ Gray
      · rw [if_pos hA, if_pos ⟨List.mem_cons_of_mem k hA.1, hA.2⟩]
      · rw [if_neg hA]
        by_cases hjk : j = k
        · subst hjk
          by_cases hpc : pointClass correct guess j ≠ Gray
          · rw [if_pos ⟨rfl, hpc⟩, if_pos ⟨List.mem_cons_self j t, hpc⟩]
          · rw [if_neg (fun h => hpc h.2), if_neg (fun h => hpc h.2)]
        · rw [if_neg (fun h => hjk h.1),
            if_neg (fun h => hA ⟨(List.mem_cons.mp h.1).resolve_left hjk, h.2⟩)]

/-- The classifier computes `pointClass` at every position. -/
lemma simulate_guess_apply (correct guess : Word) (j : Fin 5) :
    simulate_guess correct guess j = pointClass correct guess j := by
  unfold simulate_guess
  rw [simFold_apply]
  by_cases hpc : pointClass correct guess j ≠ Gray
  · rw [if_pos ⟨List.mem_finRange j, hpc⟩]
  · push_neg at hpc
    rw [if_neg (fun h => h.2 hpc)]
    exact hpc.symm

/-- Claim C5: at each position the naive classifier returns Correct on an
exact positional match, else Present whenever the guessed letter occurs
anywhere in the answer, else Absent — with no consumption of letter counts,
so each repeated guess letter is tagged independently. -/
theorem C5_classifier_pointwise (answer guess : Word) (i : Fin 5) :
    simulate_guess answer guess i =
      if guess i = answer i then Green
      else if ∃ j, answer j = guess i then Yellow
      else Gray := by
  rw [simulate_guess_apply]
  unfold pointClass
  by_cases h1 : answer i = guess i
  · rw [if_pos h1, if_pos h1.symm]
  · rw [if_neg h1]
    by_cases h2 : ∃ j, answer j = guess i
    · rw [if_pos ((wordContains_iff answer (guess i)).mpr h2)]
      rw [if_neg (fun hg : guess i = answer i => h1 hg.symm), if_pos h2]
    · rw [if_neg (show ¬(wordContains answer (guess i) = true) from
        fun hc => h2 ((wordContains_iff answer (guess i)).mp hc))]
      rw [if_neg (fun hg : guess i = answer i => h1 hg.symm), if_neg h2]

lemma pointClass_green (answer guess : Word) (i : Fin 5)
    (h : pointClass answer guess i = Green) : answer i = guess i := by
  unfold pointClass at h
  by_cases a : answer i = guess i
  · exact a
  · exfalso
    rw [if_neg a] at h
    by_cases b : wordContains answer (guess i) = true
    · rw [if_pos b] at h
      exact absurd h (by decide)
    · rw [if_neg b] at h
      exact absurd h (by decide)

lemma pointClass_yellow (answer guess : Word) (i : Fin 5)
    (h : pointClass answer guess i = Yellow) :
    answer i ≠ guess i ∧ ∃ j, answer j = guess i := by
  unfold pointClass at h
  by_cases a : answer i = guess i
  · rw [if_pos a] at h
    exact absurd h (by decide)
  · rw [if_neg a] at h
    by_cases b : wordContains answer (guess i) = true
    · exact ⟨a, (wordContains_iff answer (guess i)).mp b⟩
    · rw [if_neg b] at h
      exact absurd h (by decide)

lemma pointClass_gray (answer guess : Word) (i : Fin 5)
    (h : pointClass answer guess i = Gray) : ∀ j, answer j ≠ guess i := by
  unfold pointClass at h
  by_cases a : answer i = guess i
  · rw [if_pos a] at h
    exact absurd h (by decide)
  · rw [if_neg a] at h
    by_cases b : wordContains answer (guess i) = true
    · rw [if_pos b] at h
      exact absurd h (by decide)
    · intro j hj
      exact b ((wordContains_iff answer (guess i)).mpr ⟨j, hj⟩)

/-- Claim C1: folding the feedback that any guess generates against the true
answer into any constraint state the answer already satisfies (in particular
a fresh one) never filters the answer out. -/
theorem C1_answer_never_filtered (s : Constraints) (answer guess : Word)
    (h : s.matches answer = true) :
    (s.update_from_guess guess (simulate_guess answer guess)).matches answer = true := by
  rw [matches_iff] at h ⊢
  obtain ⟨h1, h2, h3, h4⟩ := h
  have hpc : ∀ i, simulate_guess answer guess i = pointClass answer guess i :=
    simulate_guess_apply answer guess
  unfold Constraints.update_from_guess
  refine ⟨?_, ?_, ?_, ?_⟩
  · intro i
    by_cases hni :
        (((List.finRange 5).foldl (updStep guess (simulate_guess answer guess))
          (s, [])).1.included_letters i) = []
    · exact Or.inl hni
    · refine Or.inr ?_
      rcases h1 i with hsempty | ⟨c, hcs, j, hj⟩
      · obtain ⟨c, hc⟩ := List.exists_mem_of_ne_nil _ hni
        rcases (updFold_incl guess (simulate_guess answer guess)
            (List.finRange 5) (s, []) i c).mp hc with hm | ⟨-, hY, rfl⟩
        · rw [hsempty] at hm
          exact absurd hm (List.not_mem_nil c)
        · obtain ⟨-, j, hj⟩ := pointClass_yellow answer guess i (by rw [← hpc i]; exact hY)
          exact ⟨guess i, hc, j, hj⟩
      · refine ⟨c, ?_, j, hj⟩
        exact (updFold_incl guess (simulate_guess answer guess)
          (List.finRange 5) (s, []) i c).mpr (Or.inl hcs)
  · intro c hc j
    rcases updFold_excl_sub guess (simulate_guess answer guess)
        (List.finRange 5) (s, []) c hc with hm | ⟨i, -, hGray, rfl⟩
    · exact h2 c hm j
    · exact pointClass_gray answer guess i (by rw [← hpc i]; exact hGray) j
  · intro i lv hl
    rcases updFold_known guess (simulate_guess answer guess)
        (List.finRange 5) (s, []) i with hk | ⟨hG, hk⟩
    · rw [hk] at hl
      exact h3 i lv hl
    · rw [hk] at hl
      injection hl with hlv
      rw [← hlv]
      exact pointClass_green answer guess i (by rw [← hpc i]; exact hG)
  · intro i hnone hmem
    rcases updFold_known guess (simulate_guess answer guess)
        (List.finRange 5) (s, []) i with hk | ⟨-, hk⟩
    · rw [hk] at hnone
      rcases (updFold_incl guess (simulate_guess answer guess)
          (List.finRange 5) (s, []) i (answer i)).mp hmem with hm | ⟨-, hY, heq⟩
      · exact h4 i hnone hm
      · exact (pointClass_yellow answer guess i (by rw [← hpc i]; exact hY)).1 heq
    · rw [hk] at hnone
      exact Option.noConfusion hnone

/-- Witness for claim C1: a fresh constraint state, answer crane, guess
salet. -/
theorem C1_witness :
    Constraints.new.matches crane = true ∧
      (Constraints.new.update_from_guess salet (simulate_guess crane salet)).matches crane
        = true :=
  ⟨by decide, C1_answer_never_filtered Constraints.new crane salet (by decide)⟩

/-- Positions of a five-letter word, split around a chosen position `i`:
those before `i`, then `i`, then those after. -/
lemma finRange_decomp (i : Fin 5) :
    List.finRange 5 =
      ((List.finRange 5).filter (fun j => decide (j < i))) ++
        i :: ((List.finRange 5).filter (fun j => decide (i < j))) := by
  fin_cases i <;> decide

/-- Once a letter is in the `seen` set, the rest of the fold never adds it
to the global-excluded list. -/
lemma updFold_excl_avoid_seen (g : Word) (f : Fin 5 → WordleAnswerColor) (c : Char)
    (l : List (Fin 5)) :
    ∀ (p : Constraints × List Char), c ∈ p.2 → c ∉ p.1.excluded_letters →
      c ∉ (l.foldl (updStep g f) p).1.excluded_letters := by
  induction l with
  | nil => intro p _ h; exact h
  | cons k t ih =>
      intro p hseen hex
      simp only [List.foldl_cons]
      cases hk : f k
      · refine ih _ ?_ ?_
        · simp only [updStep, hk]
          exact List.mem_cons_of_mem _ hseen
        · simpa [updStep, hk] using hex
      · refine ih _ ?_ ?_
        · simp only [updStep, hk]
          exact List.mem_cons_of_mem _ hseen
        · simpa [updStep, hk] using hex
      · refine ih _ ?_ ?_
        · simpa [updStep, hk] using hseen
        · simp only [updStep, hk]
          split
          · exact hex
          · rename_i hcond
            intro hmem
            rcases List.mem_append.mp hmem with hm | hm
            · exact hex hm
            · rw [List.mem_singleton] at hm
              subst hm
              exact hcond (Or.inr hseen)

/-- If no gray position of `l` carries letter `c`, the fold over `l` never
adds `c` to the global-excluded list. -/
lemma updFold_excl_no_gray (g : Word) (f : Fin 5 → WordleAnswerColor) (c : Char)
    (l : List (Fin 5)) :
    ∀ (p : Constraints × List Char), (∀ j ∈ l, ¬(f j = Gray ∧ g j = c)) →
      c ∉ p.1.excluded_letters → c ∉ (l.foldl (updStep g f) p).1.excluded_letters := by
  induction l with
  | nil => intro p _ h; exact h
  | cons k t ih =>
      intro p hcond hex
      simp only [List.foldl_cons]
      refine ih _ (fun j hj => hcond j (List.mem_cons_of_mem k hj)) ?_
      cases hk : f k
      · simpa [updStep, hk] using hex
      · simpa [updStep, hk] using hex
      · simp only [updStep, hk]
        split
        · exact hex
        · intro hmem
          rcases List.mem_append.mp hmem with hm | hm
          · exact hex hm
          · rw [List.mem_singleton] at hm
            exact hcond k (List.mem_cons_self k t) ⟨hk, hm.symm⟩

/-- Claim C2 is false as stated: guess aabcd with feedback
[Absent, Correct, Absent, Absent, Absent] tags the letter a Correct at
position 1, yet the resulting state globally excludes a, because the Absent
occurrence at position 0 is processed before the letter is marked seen. -/
theorem C2_counterexample :
    (![Gray, Green, Gray, Gray, Gray] : Fin 5 → WordleAnswerColor) 1 = Green ∧
      (!['a', 'a', 'b', 'c', 'd'] : Word) 1 = 'a' ∧
      'a' ∈ (Constraints.new.update_from_guess !['a', 'a', 'b', 'c', 'd']
        ![Gray, Green, Gray, Gray, Gray]).excluded_letters := by
  refine ⟨rfl, rfl, by decide⟩

/-- Claim C2 (amended): a letter tagged Correct or Present at position `i`
is not in the global-excluded set of the updated state, provided it was not
excluded before the update and every Absent tag carrying the same letter sits
at a position *after* `i` (the code only protects letters already seen
earlier in the same guess). -/
theorem C2_seen_letters_not_excluded (s : Constraints) (guess : Word)
    (output : Fin 5 → WordleAnswerColor) (i : Fin 5)
    (htag : output i = Green ∨ output i = Yellow)
    (hnot : guess i ∉ s.excluded_letters)
    (horder : ∀ j, guess j = guess i → output j = Gray → i < j) :
    guess i ∉ (s.update_from_guess guess output).excluded_letters := by
  unfold Constraints.update_from_guess
  rw [finRange_decomp i, List.foldl_append]
  simp only [List.foldl_cons]
  have hpre : guess i ∉
      (((List.finRange 5).filter (fun j => decide (j < i))).foldl
        (updStep guess output) (s, [])).1.excluded_letters := by
    refine updFold_excl_no_gray guess output (guess i) _ _ ?_ hnot
    intro j hj ⟨hGray, hgj⟩
    have hlt : j < i := by
      have := List.of_mem_filter hj
      exact of_decide_eq_true this
    exact absurd (horder j hgj hGray) (lt_asymm hlt)
  rcases htag with hG | hY
  · have hstep : updStep guess output
        (((List.finRange 5).filter (fun j => decide (j < i))).foldl
          (updStep guess output) (s, [])) i =
        ({ (((List.finRange 5).filter (fun j => decide (j < i))).foldl
            (updStep guess output) (s, [])).1 with
          known_letters := Function.update
            (((List.finRange 5).filter (fun j => decide (j < i))).foldl
              (updStep guess output) (s, [])).1.known_letters i (some (guess i)) },
          guess i :: (((List.finRange 5).filter (fun j => decide (j < i))).foldl
            (updStep guess output) (s, [])).2) := by
      simp [updStep, hG]
    rw [hstep]
    exact updFold_excl_avoid_seen guess output (guess i) _ _
      (List.mem_cons_self _ _) hpre
  · have hstep : (updStep guess output
        (((List.finRange 5).filter (fun j => decide (j < i))).foldl
          (updStep guess output) (s, [])) i).2 =
        guess i :: (((List.finRange 5).filter (fun j => decide (j < i))).foldl
          (updStep guess output) (s, [])).2 := by
      simp [updStep, hY]
    have hstep1 : (updStep guess output
        (((List.finRange 5).filter (fun j => decide (j < i))).foldl
          (updStep guess output) (s, [])) i).1.excluded_letters =
        (((List.finRange 5).filter (fun j => decide (j < i))).foldl
          (updStep guess output) (s, [])).1.excluded_letters := by
      simp [updStep, hY]
    refine updFold_excl_avoid_seen guess output (guess i) _ _ ?_ ?_
    · rw [hstep]
      exact List.mem_cons_self _ _
    · rw [hstep1]
      exact hpre

/-- Witness for the amended claim C2: guess aabcd, Correct at position 0,
Absent for the second a at position 1; the letter a stays out of the
excluded set. -/
theorem C2_witness :
    ((![Green, Gray, Gray, Gray, Gray] : Fin 5 → WordleAnswerColor) 0 = Green ∨
        (![Green, Gray, Gray, Gray, Gray] : Fin 5 → WordleAnswerColor) 0 = Yellow) ∧
      'a' ∉ (Constraints.new.update_from_guess !['a', 'a', 'b', 'c', 'd']
        ![Green, Gray, Gray, Gray, Gray]).excluded_letters :=
  ⟨Or.inl rfl,
    C2_seen_letters_not_excluded Constraints.new !['a', 'a', 'b', 'c', 'd']
      ![Green, Gray, Gray, Gray, Gray] 0 (Or.inl rfl) (by decide) (by decide)⟩

/-- Re-applying the loop body at position `k` after the rest of the fold has
run on the once-stepped state is a no-op on the constraints (and rebuilds
the same `seen` update): the write of step `k` is still in place. -/
lemma updStep_on_fold (g : Word) (f : Fin 5 → WordleAnswerColor) (t : List (Fin 5))
    (k : Fin 5) (p : Constraints × List Char) :
    updStep g f ((t.foldl (updStep g f) (updStep g f p k)).1, p.2) k
      = ((t.foldl (updStep g f) (updStep g f p k)).1, (updStep g f p k).2) := by
  cases hk : f k
  · -- Green: the known letter at k is already the guess letter.
    have hknown : (t.foldl (updStep g f) (updStep g f p k)).1.known_letters k
        = some (g k) := by
      apply updFold_known_stable
      simp [updStep, hk, Function.update_same]
    generalize hr : t.foldl (updStep g f) (updStep g f p k) = r
    rw [hr] at hknown
    simp only [updStep, hk]
    have hupd : Function.update r.1.known_letters k (some (g k)) = r.1.known_letters := by
      funext j
      by_cases hj : j = k
      · subst hj
        rw [Function.update_same, hknown]
      · rw [Function.update_noteq hj]
    rw [hupd]
  · -- Yellow: the guess letter is already in the yellow set at k.
    have hmem : g k ∈ (t.foldl (updStep g f) (updStep g f p k)).1.included_letters k := by
      apply (updFold_incl g f t _ k (g k)).mpr
      left
      simp only [updStep, hk]
      rw [Function.update_same]
      by_cases hm : g k ∈ p.1.included_letters k
      · rw [if_pos hm]
        exact hm
      · rw [if_neg hm]
        exact List.mem_append_right _ (List.mem_singleton.mpr rfl)
    generalize hr : t.foldl (updStep g f) (updStep g f p k) = r
    rw [hr] at hmem
    simp only [updStep, hk]
    rw [if_pos hmem, Function.update_eq_self]
  · -- Gray: either the condition blocked the write, or the letter is now excluded.
    by_cases hcond : g k ∈ p.1.excluded_letters ∨ g k ∈ p.2
    · have hq : updStep g f p k = (p.1, p.2) := by
        simp only [updStep, hk]
        rw [if_pos hcond]
      rw [hq]
      have hcond2 : g k ∈ (t.foldl (updStep g f) (p.1, p.2)).1.excluded_letters
          ∨ g k ∈ p.2 := by
        rcases hcond with h | h
        · exact Or.inl (updFold_excl_mono g f t (p.1, p.2) _ h)
        · exact Or.inr h
      simp only [updStep, hk]
      rw [if_pos hcond2]
    · have hq : updStep g f p k
          = ({ p.1 with excluded_letters := p.1.excluded_letters ++ [g k] }, p.2) := by
        simp only [updStep, hk]
        rw [if_neg hcond]
      rw [hq]
      have hmem : g k ∈ (t.foldl (updStep g f)
          ({ p.1 with excluded_letters := p.1.excluded_letters ++ [g k] },
            p.2)).1.excluded_letters :=
        updFold_excl_mono g f t _ _
          (List.mem_append_right _ (List.mem_singleton.mpr rfl))
      simp only [updStep, hk]
      rw [if_pos (Or.inl hmem)]

/-- Re-running the `update_from_guess` fold on its own output (with the same
starting `seen` set) changes nothing: every write it would repeat is already
in place. -/
lemma updFold_idem (g : Word) (f : Fin 5 → WordleAnswerColor) (l : List (Fin 5)) :
    ∀ (s : Constraints) (seen : List Char),
      l.foldl (updStep g f) ((l.foldl (updStep g f) (s, seen)).1, seen)
        = l.foldl (updStep g f) (s, seen) := by
  induction l with
  | nil => intro s seen; rfl
  | cons k t ih =>
      intro s seen
      simp only [List.foldl_cons]
      rw [updStep_on_fold g f t k (s, seen)]
      have h := ih (updStep g f (s, seen) k).1 (updStep g f (s, seen) k).2
      rw [Prod.mk.eta] at h
      exact h

/-- Claim C10: `update_from_guess` is idempotent — folding the same guess
and feedback twice yields exactly the state obtained by folding it once. -/
theorem C10_update_idempotent (s : Constraints) (guess : Word)
    (output : Fin 5 → WordleAnswerColor) :
    (s.update_from_guess guess output).update_from_guess guess output
      = s.update_from_guess guess output := by
  unfold Constraints.update_from_guess
  exact congrArg Prod.fst (updFold_idem guess output (List.finRange 5) s [])

/-- Claim C9: the Shannon-entropy term of the fitness computation is exactly
0 against a pool of a single word: the distribution has one bucket of
probability 1. -/
theorem C9_entropy_singleton_zero (guess w : Word) :
    shannon_entropy (buildDistribution [w] guess) 1 = 0 := by
  show shannon_entropy [(simulate_guess w guess, 1)] 1 = 0
  unfold shannon_entropy
  simp

lemma colorsOf_isSome (l : List Char)
    (h : ∀ c ∈ l, (c == 'g' || c == 'y' || c == 'x') = true) :
    ∃ cs, colorsOf l = some cs ∧ cs.length = l.length := by
  induction l with
  | nil => exact ⟨[], rfl, rfl⟩
  | cons c rest ih =>
      obtain ⟨cs, hcs, hlen⟩ := ih (fun d hd => h d (List.mem_cons_of_mem c hd))
      have hc := h c (List.mem_cons_self c rest)
      rw [Bool.or_eq_true, Bool.or_eq_true] at hc
      have hcol : ∃ col, charToColor c = some col := by
        rcases hc with (hg | hy) | hx
        · rw [beq_iff_eq] at hg
          exact ⟨Green, by rw [hg]; rfl⟩
        · rw [beq_iff_eq] at hy
          exact ⟨Yellow, by rw [hy]; rfl⟩
        · rw [beq_iff_eq] at hx
          exact ⟨Gray, by rw [hx]; rfl⟩
      obtain ⟨col, hcol⟩ := hcol
      refine ⟨col :: cs, ?_, by simp [hlen]⟩
      simp [colorsOf, hcol, hcs]

/-- No input line can reach the panic/unwrap paths of the validation
block: every conversion performed after validation succeeds. -/
lemma processLine_not_crash (all_words : List (List Char)) (input : List Char) :
    processLine all_words input ≠ LineResult.crash := by
  unfold processLine
  by_cases hex : isExitLine (trimWs input) = true
  · rw [if_pos hex]
    exact fun h => LineResult.noConfusion h
  · rw [if_neg hex]
    rcases hsp : splitWs (trimWs input) with _ | ⟨guess, _ | ⟨result, _ | rest⟩⟩ <;>
      simp only [hsp]
    · exact fun h => LineResult.noConfusion h
    · exact fun h => LineResult.noConfusion h
    · by_cases h1 : guess.length ≠ 5 ∨ result.length ≠ 5
      · rw [if_pos h1]
        exact fun h => LineResult.noConfusion h
      · rw [if_neg h1]
        push_neg at h1
        by_cases h2 : result.any (fun c => !(c == 'g' || c == 'y' || c == 'x')) = true
        · rw [if_pos h2]
          exact fun h => LineResult.noConfusion h
        · rw [if_neg h2]
          by_cases h3 : ¬ guess ∈ all_words
          · rw [if_pos h3]
            exact fun h => LineResult.noConfusion h
          · rw [if_neg h3]
            have hallgood : ∀ d ∈ result, (d == 'g' || d == 'y' || d == 'x') = true := by
              intro d hd
              by_contra hbad
              apply h2
              apply List.any_eq_true.mpr
              refine ⟨d, hd, ?_⟩
              rw [Bool.not_eq_true']
              exact Bool.eq_false_iff.mpr hbad
            obtain ⟨cs, hcs, hlen⟩ := colorsOf_isSome result hallgood
            by_cases h4 : result = ['g', 'g', 'g', 'g', 'g']
            · rw [if_pos h4, dif_pos h1.1]
              exact fun h => LineResult.noConfusion h
            · rw [if_neg h4]
              simp only [hcs]
              rw [dif_pos (hlen.trans h1.2), dif_pos h1.1]
              exact fun h => LineResult.noConfusion h
    · exact fun h => LineResult.noConfusion h

/-- Every malformed line (in the spec's sense) is answered with the
re-prompting `invalid` outcome. -/
lemma malformed_invalid (all_words : List (List Char)) (input : List Char)
    (hm : Malformed all_words input = true) :
    processLine all_words input = LineResult.invalid := by
  unfold Malformed at hm
  rw [Bool.and_eq_true] at hm
  obtain ⟨hex, hrest⟩ := hm
  rw [Bool.not_eq_true'] at hex
  unfold processLine
  rw [if_neg (by rw [hex]; exact fun h => Bool.noConfusion h)]
  rcases hsp : splitWs (trimWs input) with _ | ⟨guess, _ | ⟨result, _ | rest⟩⟩ <;>
    simp only [hsp] at hrest ⊢ <;> try rfl
  rw [Bool.or_eq_true, Bool.or_eq_true, Bool.or_eq_true] at hrest
  by_cases h1 : guess.length ≠ 5 ∨ result.length ≠ 5
  · rw [if_pos h1]
  · rw [if_neg h1]
    push_neg at h1
    by_cases h2 : result.any (fun c => !(c == 'g' || c == 'y' || c == 'x')) = true
    · rw [if_pos h2]
    · rw [if_neg h2]
      by_cases h3 : ¬ guess ∈ all_words
      · rw [if_pos h3]
      · exfalso
        rcases hrest with ((ha | hb) | hc) | hd
        · exact of_decide_eq_true ha h1.1
        · exact of_decide_eq_true hb h1.2
        · exact h2 hc
        · rw [Bool.not_eq_true', decide_eq_false_iff_not] at hd
          exact hd (not_not.mp h3)

/-- Claim C6: malformed interactive input (wrong token count, wrong lengths,
a result character outside g/y/x, or an unknown guess word) is rejected with
a re-prompt that leaves the constraint state and the candidate pool
untouched, and no input line can crash the session. -/
theorem C6_malformed_input_safe (all_words : List (List Char)) (c : Constraints)
    (words : List Word) (input : List Char) :
    processLine all_words input ≠ LineResult.crash ∧
      (Malformed all_words input = true →
        processLine all_words input = LineResult.invalid ∧
          applyLine all_words c words input = (c, words, true, false)) := by
  refine ⟨processLine_not_crash all_words input, fun hm => ?_⟩
  have h := malformed_invalid all_words input hm
  refine ⟨h, ?_⟩
  unfold applyLine
  rw [h]

/-- Witness for claim C6: the one-token line hello is malformed and leaves a
fresh session state unchanged. -/
theorem C6_witness :
    Malformed [['s', 'a', 'l', 'e', 't']] ['h', 'e', 'l', 'l', 'o'] = true ∧
      processLine [['s', 'a', 'l', 'e', 't']] ['h', 'e', 'l', 'l', 'o']
          ≠ LineResult.crash ∧
        (processLine [['s', 'a', 'l', 'e', 't']] ['h', 'e', 'l', 'l', 'o']
            = LineResult.invalid ∧
          applyLine [['s', 'a', 'l', 'e', 't']] Constraints.new [] ['h', 'e', 'l', 'l', 'o']
            = (Constraints.new, [], true, false)) :=
  ⟨by decide,
    (C6_malformed_input_safe [['s', 'a', 'l', 'e', 't']] Constraints.new []
      ['h', 'e', 'l', 'l', 'o']).1,
    (C6_malformed_input_safe [['s', 'a', 'l', 'e', 't']] Constraints.new []
      ['h', 'e', 'l', 'l', 'o']).2 (by decide)⟩

/-- Enough fuel is interchangeable: once the loop returns within its fuel,
more fuel gives the same run. -/
lemma episodeLoop_mono (chooser : Nat → EpState → Word) (correct : Word) :
    ∀ (fuel : Nat) (i : Nat) (st : EpState) (r : Bool × Nat),
      episodeLoop chooser correct fuel i st = some r →
      ∀ fuel', fuel ≤ fuel' → episodeLoop chooser correct fuel' i st = some r := by
  intro fuel
  induction fuel with
  | zero => intro i st r h; exact absurd h (by simp [episodeLoop])
  | succ n ih =>
      intro i st r h fuel' hle
      rcases fuel' with _ | m
      · omega
      · simp only [episodeLoop] at h ⊢
        by_cases h1 : chooser (i + 1) st = correct
        · rw [if_pos h1] at h ⊢
          exact h
        · rw [if_neg h1] at h ⊢
          by_cases h2 : max_iterations ≤ i + 1
          · rw [if_pos h2] at h ⊢
            exact h
          · rw [if_neg h2] at h ⊢
            exact ih _ _ _ h m (by omega)

/-- With fuel `6 - i` the loop always returns: it wins at some round, or
exhausts exactly at round 6. -/
lemma episodeLoop_runs (chooser : Nat → EpState → Word) (correct : Word) :
    ∀ (fuel : Nat) (i : Nat) (st : EpState), fuel + i = 6 → i ≤ 5 →
      ∃ won j, episodeLoop chooser correct fuel i st = some (won, j) ∧
        i < j ∧ j ≤ 6 ∧ (won = false → j = 6) := by
  intro fuel
  induction fuel with
  | zero => intro i st h hi; exact ((by omega : False)).elim
  | succ n ih =>
      intro i st h hi
      simp only [episodeLoop]
      by_cases h1 : chooser (i + 1) st = correct
      · rw [if_pos h1]
        exact ⟨true, i + 1, rfl, Nat.lt_succ_self i, by omega,
          fun hh => absurd hh (by decide)⟩
      · rw [if_neg h1]
        by_cases h2 : max_iterations ≤ i + 1
        · rw [if_pos h2]
          have hi6 : i + 1 = 6 := by
            simp only [max_iterations] at h2
            omega
          exact ⟨false, i + 1, rfl, Nat.lt_succ_self i, by omega, fun _ => hi6⟩
        · rw [if_neg h2]
          have hi5 : i + 1 ≤ 5 := by
            simp only [max_iterations] at h2
            omega
          obtain ⟨won, j, hrun, hij, hj6, hwf⟩ := ih (i + 1) _ (by omega) hi5
          exact ⟨won, j, hrun, by omega, hj6, hwf⟩

/-- Claim C7: every solving episode runs at most 6 rounds; a session that
exhausts 6 guesses without a match ends exhausted at round 6; and granting
the loop any additional fuel beyond 6 changes nothing (no 7th round ever
runs). -/
theorem C7_at_most_six_rounds (chooser : Nat → EpState → Word) (correct : Word)
    (st : EpState) (fuel : Nat) (hfuel : 6 ≤ fuel) :
    ∃ won i, episodeLoop chooser correct 6 0 st = some (won, i) ∧ 1 ≤ i ∧ i ≤ 6 ∧
      (won = false → i = 6) ∧ episodeLoop chooser correct fuel 0 st = some (won, i) := by
  obtain ⟨won, j, hrun, hij, hj6, hwf⟩ :=
    episodeLoop_runs chooser correct 6 0 st (by omega) (by omega)
  exact ⟨won, j, hrun, by omega, hj6, hwf,
    episodeLoop_mono chooser correct 6 0 st (won, j) hrun fuel hfuel⟩

/-- Witness for claim C7: a chooser that immediately plays the answer wins in
one round, under any fuel at least 6. -/
theorem C7_witness :
    ∃ won i,
      episodeLoop (fun _ _ => salet) salet 6 0 ⟨[], Constraints.new, []⟩ = some (won, i) ∧
        1 ≤ i ∧ i ≤ 6 ∧ (won = false → i = 6) ∧
        episodeLoop (fun _ _ => salet) salet 7 0 ⟨[], Constraints.new, []⟩ = some (won, i) :=
  C7_at_most_six_rounds (fun _ _ => salet) salet ⟨[], Constraints.new, []⟩ 7 (by decide)

end WordleBot
